import Mathlib

/-!
Verification of the dynamic label-schema aggregation and sanitization engine
of `nubis-prometheus-exposition` (`main.go`), as a shallow embedding in Lean.

Strings are modelled as Lean `String` / `List Char`; Go's byte-wise ordering
on UTF-8 strings coincides with code-point ordering, which is what the
`Char` linear order below provides.
-/

namespace NubisExposition

/-- Character class of the regex `[a-zA-Z0-9_]` used by `sanatize_tag`
(`regex_valid_segment`, and the tail positions of `regex_full`). -/
def isValidChar (c : Char) : Bool :=
  ('a' ≤ c && c ≤ 'z') || ('A' ≤ c && c ≤ 'Z') || ('0' ≤ c && c ≤ '9') || c == '_'

/-- Character class `[a-zA-Z_]` admitted at the first position of
`regex_full` in `sanatize_tag`. -/
def isFirstChar (c : Char) : Bool :=
  ('a' ≤ c && c ≤ 'z') || ('A' ≤ c && c ≤ 'Z') || c == '_'

/-- Matching of `regex_full = ^[a-zA-Z_][a-zA-Z0-9_]*$` against a whole
string, as used by `sanatize_tag` in `main.go`. -/
def regex_full (s : List Char) : Bool :=
  match s with
  | [] => false
  | c :: cs => isFirstChar c && cs.all isValidChar

/-- Matching of `regex_first_number = ^[0-9_]*` by `MatchString`, as used in
`sanatize_tag`. `MatchString` asks whether the regex matches somewhere in the
string; since the starred class matches the empty prefix of every string,
this test is true for every input. -/
def regex_first_number (s : List Char) : Bool :=
  match s with
  | _ => true

/-- Model of Go's `regex_valid_segment.FindAllStringSubmatch(tag, -1)` for the
pattern `[a-zA-Z0-9_]*`, following Go's documented `FindAll` semantics for
patterns that can match the empty string: the matcher repeatedly takes the
leftmost (here: maximal) run of valid characters starting at the current
position; an empty match found at the end position of the previous match is
discarded and the scan advances one character; any other empty match is kept.
The first argument accumulates (reversed) the valid run currently being
consumed; the boolean records whether the scan position is exactly the end
position of the previous match. -/
def findAllSegments : List Char → List Char → Bool → List (List Char)
  | cur, [], true => [cur.reverse]
  | _, [], false => [[]]
  | cur, c :: cs, true =>
    if isValidChar c then findAllSegments (c :: cur) cs true
    else cur.reverse :: findAllSegments [] cs false
  | _, c :: cs, false =>
    if isValidChar c then findAllSegments [c] cs true
    else [] :: findAllSegments [] cs false

/-- Model of the restitch loop of `sanatize_tag`: append every match, with a
single `"_"` between consecutive matches, then `strings.Join` everything. -/
def restitch : List (List Char) → List Char
  | [] => []
  | [r] => r
  | r :: rs => r ++ '_' :: restitch rs

/-- Shallow embedding of `sanatize_tag` (`main.go` lines 101-142). The Go
function either returns a string or panics; `none` is the panic branch.
Step 1 returns inputs that already match `regex_full`; step 2 restitches the
valid segments found by `FindAllStringSubmatch`; step 3 tests
`regex_first_number` (always true, see above) and pads with a leading
underscore. -/
def sanatize_tag (tag : List Char) : Option (List Char) :=
  if regex_full tag then some tag
  else
    let valid_string := restitch (findAllSegments [] tag false)
    if regex_full valid_string then some valid_string
    else
      let pad_string := if regex_first_number valid_string then '_' :: valid_string else []
      if regex_full pad_string then some pad_string else none

/-- String-level wrapper of `sanatize_tag`. -/
def sanatizeS (tag : String) : Option String :=
  (sanatize_tag tag.data).map String.mk

/-- Lexicographic comparison of character lists by code point. For valid
UTF-8, byte-wise comparison of the encoded strings (what Go's `sort.Strings`
uses on `string`) coincides with this code-point lexicographic order. -/
def charListLe : List Char → List Char → Bool
  | [], _ => true
  | _ :: _, [] => false
  | a :: as, b :: bs => if a < b then true else if b < a then false else charListLe as bs

/-- Byte-wise (equivalently code-point lexicographic) string comparison used
to model the `sort.Strings(keys)` calls in `main.go`. -/
def strLe (a b : String) : Bool :=
  charListLe a.data b.data

/-- Ascending byte-wise order on strings, as a relation. -/
def strOrd (a b : String) : Prop :=
  strLe a b = true

instance : DecidableRel strOrd := fun a b =>
  inferInstanceAs (Decidable (strLe a b = true))

/-- Model of `sort.Strings(keys)`: the ascending byte-wise sort of the key
slice. `sort.Strings` is some ascending sort; since the order is total,
transitive and antisymmetric, every correct ascending sort of the same
multiset produces this very list, so modelling it by insertion sort is
faithful. -/
def sortStrings (keys : List String) : List String :=
  List.insertionSort strOrd keys

/-- One scan of a resource's tag list by the tag-universe loops of `main.go`
(for example `get_ec2_instance_tags` lines 224-237): every key not yet in the
accumulated key set is added. The Go code stores the set as map keys; we keep
first-seen order, which is irrelevant because every use sorts afterwards. -/
def addTags (acc : List String) : List (String × String) → List String
  | [] => acc
  | (k, _) :: rest => addTags (if k ∈ acc then acc else acc ++ [k]) rest

/-- The tag-key universe of a collection of tag lists: iterate all resources,
iterate each resource's tags, insert each unseen key. -/
def tagUniverse (resources : List (List (String × String))) : List String :=
  resources.foldl addTags []

/-- The sanitization loop over a key list (for example `get_ec2_instance_tags`
lines 273-277): sanitize every key in order; `none` if any key panics. -/
def sanitizeKeys : List String → Option (List String)
  | [] => some []
  | k :: ks =>
    match sanatizeS k, sanitizeKeys ks with
    | some s, some rest => some (s :: rest)
    | _, _ => none

/-- The raw (pre-sanitization) key sequence a tag-aggregating kind builds:
the kind's fixed metadata column names are appended first, then every key of
the tag universe, and the whole slice is sorted with `sort.Strings`. This is
the shape shared verbatim by `get_ec2_instance_tags`, `get_efs_tags`,
`get_lambda_tags` and `get_rds_tags`. -/
def kindKeys (metadata : List String) (resources : List (List (String × String))) :
    List String :=
  sortStrings (metadata ++ tagUniverse resources)

/-- The label-column sequence (`sanitizedKeys` in `main.go`) of a
tag-aggregating kind: the sorted raw keys, each passed through
`sanatize_tag`. -/
def kindSchema (metadata : List String) (resources : List (List (String × String))) :
    Option (List String) :=
  sanitizeKeys (kindKeys metadata resources)

/-- An EC2 instance as `get_ec2_instance_tags` consumes it: an instance id
and its tag list. -/
structure Ec2Instance where
  instanceId : String
  tags : List (String × String)
deriving DecidableEq

/-- Tag-key universe of an EC2 instance collection (lines 223-237). -/
def ec2Universe (rs : List Ec2Instance) : List String :=
  tagUniverse (rs.map Ec2Instance.tags)

/-- Sorted raw key slice of `get_ec2_instance_tags` (lines 263-269): the
fixed column `InstanceId` appended first, then the tag universe, sorted. -/
def ec2Keys (rs : List Ec2Instance) : List String :=
  kindKeys ["InstanceId"] (rs.map Ec2Instance.tags)

/-- The `sanitizedKeys` label schema of `get_ec2_instance_tags`
(lines 273-277). -/
def ec2Schema (rs : List Ec2Instance) : Option (List String) :=
  kindSchema ["InstanceId"] (rs.map Ec2Instance.tags)

/-- A Go `map[string]string` modelled as a total function: looking up a
missing key yields the zero value `""`. -/
def emptyTagMap : String → String := fun _ => ""

/-- One Go map assignment `m[k] = v`. -/
def mapSet (m : String → String) (k v : String) : String → String :=
  fun x => if x = k then v else m x

/-- A sequence of Go map assignments, first pair written first. -/
def setAll (m : String → String) : List (String × String) → (String → String)
  | [] => m
  | (k, v) :: rest => setAll (mapSet m k v) rest

/-- The per-instance tag map built by `get_ec2_instance_tags` lines 240-261:
initialize every universe key to `""`, then write the instance's own tag
values over it. -/
def instanceTagMap (univ : List String) (tags : List (String × String)) :
    String → String :=
  setAll (setAll emptyTagMap (univ.map fun k => (k, ""))) tags

/-- The label-value row built for one instance by lines 291-301: walk the
sorted raw keys; the `InstanceId` column takes the instance id, every other
column reads the instance's tag map. -/
def ec2Vector (rs : List Ec2Instance) (r : Ec2Instance) : List String :=
  (ec2Keys rs).map fun v =>
    if v = "InstanceId" then r.instanceId
    else instanceTagMap (ec2Universe rs) r.tags v

/-- The value of the last tag with key `k` in a tag list, `""` when absent.
This is the net effect of replaying the tag list into a Go map. -/
def lastTagValue? (tags : List (String × String)) (k : String) : Option String :=
  match tags with
  | [] => none
  | (k1, v1) :: rest =>
    match lastTagValue? rest k with
    | some v => some v
    | none => if k1 = k then some v1 else none

/-- Reading a column value out of a resource's tags: the tag's (last) value
when the resource carries the tag, the empty string otherwise. -/
def lastTagValue (tags : List (String × String)) (k : String) : String :=
  (lastTagValue? tags k).getD ""

/-- A Lambda function as `get_lambda_tags` consumes it. -/
structure LambdaFn where
  functionArn : String
  functionName : String
  description : String
  tags : List (String × String)
deriving DecidableEq

/-- Tag-key universe of a Lambda function collection (lines 466-487). -/
def lambdaUniverse (fs : List LambdaFn) : List String :=
  tagUniverse (fs.map LambdaFn.tags)

/-- Sorted raw key slice of `get_lambda_tags` (lines 523-531): the fixed
columns `FunctionArn`, `FunctionName`, `Description` appended first, then the
tag universe, sorted. -/
def lambdaKeys (fs : List LambdaFn) : List String :=
  kindKeys ["FunctionArn", "FunctionName", "Description"] (fs.map LambdaFn.tags)

/-- The `sanitizedKeys` label schema of `get_lambda_tags` (lines 534-538). -/
def lambdaSchema (fs : List LambdaFn) : Option (List String) :=
  kindSchema ["FunctionArn", "FunctionName", "Description"] (fs.map LambdaFn.tags)

/-- The slice of the filesystem `write_file` touches: the contents at the
target path and at the run's temporary path (`none` = file absent). The two
paths are distinct: the temporary name is the target name extended with a
`.tmpN` suffix. -/
structure PubFS where
  target : Option String
  temp : Option String
deriving DecidableEq

/-- Outcome of a `write_file` run. `fatalExit` is `log.Fatal`: it calls
`os.Exit`, which terminates the process immediately, so deferred calls —
in particular the `defer os.Remove(tmpName)` of line 155 — do not run. -/
inductive PubOutcome where
  | ok (fs : PubFS)
  | fatalExit (fs : PubFS)
deriving DecidableEq

/-- Shallow embedding of `write_file` (`main.go` lines 144-167) over a
filesystem state plus fault flags for each fallible step (temp-file creation
with `O_EXCL`, `Write`, `Close`, `Rename`). On a failed or partial `Write`
the temporary file exists with unspecified partial contents, modelled as
`""`; only its existence matters below. The deferred `os.Remove(tmpName)`
runs only when the function returns normally; on the success path it runs
after the rename, when the temporary name no longer exists, and its error is
ignored. -/
def write_file (fs : PubFS) (fileContents : String)
    (createFails writeFails closeFails renameFails : Bool) : PubOutcome :=
  if createFails || fs.temp.isSome then
    .fatalExit fs
  else
    let created : PubFS := { fs with temp := some "" }
    if writeFails then
      .fatalExit created
    else
      let written : PubFS := { fs with temp := some fileContents }
      if closeFails then
        .fatalExit written
      else if renameFails then
        .fatalExit written
      else
        .ok { target := some fileContents, temp := none }

/-- One ASG membership record as `get_asg_membership` consumes it: group
name, group ARN and the group's member instance ids. -/
structure AsgGroup where
  name : String
  arn : String
  instanceIds : List String
deriving DecidableEq

/-- The label-value rows `get_asg_membership` registers (lines 196-200), in
iteration order: one `[name, arn, instanceId]` row per member of each
group. -/
def asgVectors (groups : List AsgGroup) : List (List String) :=
  (groups.map fun g => g.instanceIds.map fun i => [g.name, g.arn, i]).flatten

/-- One `GaugeVec.WithLabelValues(values...).Set(1)` call, with the semantics
documented by the prometheus client library: the `GaugeVec` keeps one child
gauge per distinct label-value tuple; an already-present tuple is looked up
(and its value overwritten with the same `1`), a new tuple is appended. No
error or panic is possible here. -/
def gaugeVecSet1 (series : List (List String)) (v : List String) : List (List String) :=
  if v ∈ series then series else series ++ [v]

/-- The set of series held by the `aws_asg_instances` gauge vector after
`get_asg_membership` has registered every membership row. -/
def asgSeries (groups : List AsgGroup) : List (List String) :=
  (asgVectors groups).foldl gaugeVecSet1 []

theorem charListLe_cons_iff {a b : Char} {as bs : List Char} :
    charListLe (a :: as) (b :: bs) = true ↔ a < b ∨ (a = b ∧ charListLe as bs = true) := by
  rcases lt_trichotomy a b with h | h | h
  · simp [charListLe, h]
  · subst h; simp [charListLe, lt_irrefl]
  · simp [charListLe, lt_asymm h, h, h.ne']

theorem charListLe_total : ∀ a b : List Char, charListLe a b = true ∨ charListLe b a = true
  | [], _ => Or.inl rfl
  | _ :: _, [] => Or.inr rfl
  | x :: xs, y :: ys => by
    rcases lt_trichotomy x y with h | h | h
    · exact Or.inl (charListLe_cons_iff.mpr (Or.inl h))
    · subst h
      rcases charListLe_total xs ys with h2 | h2
      · exact Or.inl (charListLe_cons_iff.mpr (Or.inr ⟨rfl, h2⟩))
      · exact Or.inr (charListLe_cons_iff.mpr (Or.inr ⟨rfl, h2⟩))
    · exact Or.inr (charListLe_cons_iff.mpr (Or.inl h))

theorem charListLe_trans :
    ∀ a b c : List Char, charListLe a b = true → charListLe b c = true → charListLe a c = true
  | [], _, _, _, _ => rfl
  | _ :: _, [], _, hab, _ => by simp [charListLe] at hab
  | _ :: _, _ :: _, [], _, hbc => by simp [charListLe] at hbc
  | x :: xs, y :: ys, z :: zs, hab, hbc => by
    rw [charListLe_cons_iff] at hab hbc ⊢
    rcases hab with h1 | ⟨e1, h1⟩
    · rcases hbc with h2 | ⟨e2, h2⟩
      · exact Or.inl (lt_trans h1 h2)
      · exact Or.inl (e2 ▸ h1)
    · rcases hbc with h2 | ⟨e2, h2⟩
      · exact Or.inl (e1 ▸ h2)
      · exact Or.inr ⟨e1.trans e2, charListLe_trans xs ys zs h1 h2⟩

theorem charListLe_antisymm :
    ∀ a b : List Char, charListLe a b = true → charListLe b a = true → a = b
  | [], [], _, _ => rfl
  | [], _ :: _, _, hba => by simp [charListLe] at hba
  | _ :: _, [], hab, _ => by simp [charListLe] at hab
  | x :: xs, y :: ys, hab, hba => by
    rw [charListLe_cons_iff] at hab hba
    rcases hab with h1 | ⟨e1, h1⟩
    · rcases hba with h2 | ⟨e2, _⟩
      · exact absurd h2 (lt_asymm h1)
      · exact absurd e2 h1.ne'
    · subst e1
      rcases hba with h2 | ⟨_, h2⟩
      · exact absurd h2 (lt_irrefl x)
      · exact congrArg (x :: ·) (charListLe_antisymm xs ys h1 h2)

theorem strLe_antisymm {a b : String} (hab : strLe a b = true) (hba : strLe b a = true) :
    a = b := by
  cases a; cases b
  exact congrArg String.mk (charListLe_antisymm _ _ hab hba)

instance : IsTotal String strOrd :=
  ⟨fun a b => charListLe_total a.data b.data⟩

instance : IsTrans String strOrd :=
  ⟨fun a b c => charListLe_trans a.data b.data c.data⟩

instance : IsAntisymm String strOrd :=
  ⟨fun _ _ => strLe_antisymm⟩

theorem sortStrings_sorted (keys : List String) : List.Sorted strOrd (sortStrings keys) :=
  List.sorted_insertionSort strOrd keys

theorem sortStrings_perm (keys : List String) : (sortStrings keys).Perm keys :=
  List.perm_insertionSort strOrd keys

/-- Two key lists with the same multiset of keys sort to the same list. -/
theorem sortStrings_eq_of_perm {l1 l2 : List String} (h : l1.Perm l2) :
    sortStrings l1 = sortStrings l2 :=
  List.eq_of_perm_of_sorted ((sortStrings_perm l1).trans (h.trans (sortStrings_perm l2).symm))
    (sortStrings_sorted l1) (sortStrings_sorted l2)

theorem isFirstChar_valid {c : Char} (h : isFirstChar c = true) : isValidChar c = true := by
  simp only [isFirstChar, Bool.or_eq_true] at h
  simp only [isValidChar, Bool.or_eq_true]
  tauto

theorem segments_chars_valid :
    ∀ (s cur : List Char) (b : Bool), (∀ c ∈ cur, isValidChar c = true) →
      ∀ r ∈ findAllSegments cur s b, ∀ c ∈ r, isValidChar c = true
  | [], cur, true, hcur => by
    intro r hr c hc
    simp only [findAllSegments, List.mem_singleton] at hr
    subst hr
    exact hcur c (List.mem_reverse.mp hc)
  | [], _, false, _ => by
    intro r hr c hc
    simp only [findAllSegments, List.mem_singleton] at hr
    subst hr
    simp at hc
  | c0 :: cs, cur, true, hcur => by
    intro r hr c hc
    simp only [findAllSegments] at hr
    by_cases h : isValidChar c0
    · rw [if_pos h] at hr
      refine segments_chars_valid cs (c0 :: cur) true ?_ r hr c hc
      intro x hx
      rcases List.mem_cons.mp hx with rfl | hx
      · exact h
      · exact hcur x hx
    · rw [if_neg h] at hr
      rcases List.mem_cons.mp hr with rfl | hr
      · exact hcur c (List.mem_reverse.mp hc)
      · exact segments_chars_valid cs [] false (by simp) r hr c hc
  | c0 :: cs, cur, false, hcur => by
    intro r hr c hc
    simp only [findAllSegments] at hr
    by_cases h : isValidChar c0
    · rw [if_pos h] at hr
      refine segments_chars_valid cs [c0] true ?_ r hr c hc
      intro x hx
      rcases List.mem_cons.mp hx with rfl | hx
      · exact h
      · simp at hx
    · rw [if_neg h] at hr
      rcases List.mem_cons.mp hr with rfl | hr
      · simp at hc
      · exact segments_chars_valid cs [] false (by simp) r hr c hc

theorem restitch_chars_valid :
    ∀ runs : List (List Char), (∀ r ∈ runs, ∀ c ∈ r, isValidChar c = true) →
      ∀ c ∈ restitch runs, isValidChar c = true
  | [], _ => by
    intro c hc
    simp [restitch] at hc
  | [r], h => by
    intro c hc
    simp only [restitch] at hc
    exact h r (by simp) c hc
  | r :: r2 :: rs, h => by
    intro c hc
    simp only [restitch] at hc
    rcases List.mem_append.mp hc with hc | hc
    · exact h r (by simp) c hc
    · rcases List.mem_cons.mp hc with rfl | hc
      · decide
      · exact restitch_chars_valid (r2 :: rs) (fun q hq => h q (List.mem_cons_of_mem r hq)) c hc

theorem valid_string_chars_valid (tag : List Char) :
    ∀ c ∈ restitch (findAllSegments [] tag false), isValidChar c = true :=
  restitch_chars_valid _ (segments_chars_valid tag [] false (by simp))

theorem regex_full_pad {vs : List Char} (h : ∀ c ∈ vs, isValidChar c = true) :
    regex_full ('_' :: vs) = true := by
  simp only [regex_full, Bool.and_eq_true]
  exact ⟨by decide, List.all_eq_true.mpr h⟩

theorem sanatize_tag_total (tag : List Char) :
    ∃ r, sanatize_tag tag = some r ∧ regex_full r = true := by
  by_cases h1 : regex_full tag = true
  · exact ⟨tag, by simp [sanatize_tag, h1], h1⟩
  · by_cases h2 : regex_full (restitch (findAllSegments [] tag false)) = true
    · exact ⟨_, by simp [sanatize_tag, h1, h2], h2⟩
    · have h3 : regex_full ('_' :: restitch (findAllSegments [] tag false)) = true :=
        regex_full_pad (valid_string_chars_valid tag)

      exact ⟨_, by simp [sanatize_tag, h1, h2, regex_first_number, h3], h3⟩

theorem sanatize_tag_full {tag r : List Char} (h : sanatize_tag tag = some r) :
    regex_full r = true := by
  unfold sanatize_tag at h
  by_cases h1 : regex_full tag = true
  · simp [h1] at h
    exact h ▸ h1
  · simp only [h1, Bool.false_eq_true, if_false] at h
    by_cases h2 : regex_full (restitch (findAllSegments [] tag false)) = true
    · simp [h2] at h
      exact h ▸ h2
    · simp only [h2, Bool.false_eq_true, if_false, regex_first_number, if_true] at h
      by_cases h3 : regex_full ('_' :: restitch (findAllSegments [] tag false)) = true
      · simp [h3] at h
        exact h ▸ h3
      · simp [h3] at h

theorem sanatize_tag_of_full {r : List Char} (h : regex_full r = true) :
    sanatize_tag r = some r := by
  simp [sanatize_tag, h]

theorem segments_of_invalid :
    ∀ s : List Char, (∀ c ∈ s, isValidChar c = false) →
      findAllSegments [] s false = List.replicate (s.length + 1) []
  | [], _ => rfl
  | c0 :: cs, h => by
    have h0 : isValidChar c0 = false := h c0 (by simp)
    simp only [findAllSegments, h0, Bool.false_eq_true, if_false]
    rw [segments_of_invalid cs (fun c hc => h c (List.mem_cons_of_mem _ hc))]
    simp [List.replicate_succ]

theorem restitch_replicate :
    ∀ n : Nat, restitch (List.replicate (n + 1) []) = List.replicate n '_'
  | 0 => rfl
  | n + 1 => by
    have e : List.replicate (n + 1 + 1) ([] : List Char) =
        [] :: [] :: List.replicate n [] := rfl
    rw [e]
    show ([] : List Char) ++ '_' :: restitch ([] :: List.replicate n []) = _
    rw [show ([] : List Char) :: List.replicate n [] = List.replicate (n + 1) [] from rfl]
    rw [restitch_replicate n]
    simp [List.replicate_succ]

theorem sanatize_tag_invalid :
    ∀ s : List Char, s ≠ [] → (∀ c ∈ s, isValidChar c = false) →
      sanatize_tag s = some (List.replicate s.length '_')
  | [], hne, _ => absurd rfl hne
  | c0 :: cs, _, h => by
    have h0 : isValidChar c0 = false := h c0 (by simp)
    have h1 : regex_full (c0 :: cs) = false := by
      cases hf : isFirstChar c0 with
      | false => simp [regex_full, hf]
      | true => exact absurd (isFirstChar_valid hf) (by simp [h0])
    have hvs : restitch (findAllSegments [] (c0 :: cs) false) =
        List.replicate (cs.length + 1) '_' := by
      rw [segments_of_invalid (c0 :: cs) h]
      exact restitch_replicate _
    have h2 : regex_full (List.replicate (cs.length + 1) '_') = true := by
      rw [List.replicate_succ]
      exact regex_full_pad fun c hc => by rw [List.eq_of_mem_replicate hc]; decide
    simp [sanatize_tag, h1, hvs, h2]

theorem sanatizeS_total (s : String) :
    ∃ r, sanatizeS s = some r ∧ regex_full r.data = true := by
  obtain ⟨l, hl, hf⟩ := sanatize_tag_total s.data
  exact ⟨String.mk l, by simp [sanatizeS, hl], hf⟩

theorem mem_addTags :
    ∀ (tags : List (String × String)) (acc : List String) (x : String),
      x ∈ addTags acc tags ↔ x ∈ acc ∨ ∃ v, (x, v) ∈ tags
  | [], acc, x => by simp [addTags]
  | (k, v0) :: rest, acc, x => by
    simp only [addTags]
    rw [mem_addTags rest _ x]
    by_cases hk : k ∈ acc
    · rw [if_pos hk]
      simp only [List.mem_cons, Prod.mk.injEq]
      constructor
      · rintro (h | ⟨v, hv⟩)
        · exact Or.inl h
        · exact Or.inr ⟨v, Or.inr hv⟩
      · rintro (h | ⟨v, ⟨h1, h2⟩ | hv⟩)
        · exact Or.inl h
        · exact Or.inl (h1 ▸ hk)
        · exact Or.inr ⟨v, hv⟩
    · rw [if_neg hk]
      simp only [List.mem_append, List.mem_singleton, List.mem_cons, Prod.mk.injEq]
      constructor
      · rintro ((h | h | h) | ⟨v, hv⟩)
        · exact Or.inl h
        · exact Or.inr ⟨v0, Or.inl ⟨h, rfl⟩⟩
        · simp at h
        · exact Or.inr ⟨v, Or.inr hv⟩
      · rintro (h | ⟨v, ⟨h1, h2⟩ | hv⟩)
        · exact Or.inl (Or.inl h)
        · exact Or.inl (Or.inr (Or.inl h1))
        · exact Or.inr ⟨v, hv⟩

theorem nodup_addTags :
    ∀ (tags : List (String × String)) (acc : List String),
      acc.Nodup → (addTags acc tags).Nodup
  | [], _, h => h
  | (k, v0) :: rest, acc, h => by
    simp only [addTags]
    apply nodup_addTags rest
    by_cases hk : k ∈ acc
    · rwa [if_pos hk]
    · rw [if_neg hk]
      simp [List.nodup_append, h, hk]

theorem mem_foldl_addTags :
    ∀ (rss : List (List (String × String))) (acc : List String) (x : String),
      x ∈ List.foldl addTags acc rss ↔ x ∈ acc ∨ ∃ tags ∈ rss, ∃ v, (x, v) ∈ tags
  | [], acc, x => by simp
  | ts :: rss, acc, x => by
    rw [List.foldl_cons, mem_foldl_addTags rss _ x, mem_addTags ts acc x]
    simp only [List.exists_mem_cons_iff]
    tauto

theorem nodup_foldl_addTags :
    ∀ (rss : List (List (String × String))) (acc : List String),
      acc.Nodup → (List.foldl addTags acc rss).Nodup
  | [], _, h => h
  | ts :: rss, acc, h => by
    rw [List.foldl_cons]
    exact nodup_foldl_addTags rss _ (nodup_addTags ts acc h)

theorem mem_tagUniverse {rss : List (List (String × String))} {x : String} :
    x ∈ tagUniverse rss ↔ ∃ tags ∈ rss, ∃ v, (x, v) ∈ tags := by
  rw [tagUniverse, mem_foldl_addTags]
  simp

theorem nodup_tagUniverse (rss : List (List (String × String))) :
    (tagUniverse rss).Nodup :=
  nodup_foldl_addTags rss [] (by simp)

theorem tagUniverse_perm_of_perm {rss1 rss2 : List (List (String × String))}
    (h : rss1.Perm rss2) : (tagUniverse rss1).Perm (tagUniverse rss2) := by
  refine (List.perm_ext_iff_of_nodup (nodup_tagUniverse _) (nodup_tagUniverse _)).mpr ?_
  intro x
  rw [mem_tagUniverse, mem_tagUniverse]
  constructor
  · rintro ⟨tags, ht, hv⟩
    exact ⟨tags, h.mem_iff.mp ht, hv⟩
  · rintro ⟨tags, ht, hv⟩
    exact ⟨tags, h.mem_iff.mpr ht, hv⟩

theorem kindKeys_eq_of_perm {meta : List String} {rss1 rss2 : List (List (String × String))}
    (h : rss1.Perm rss2) : kindKeys meta rss1 = kindKeys meta rss2 :=
  sortStrings_eq_of_perm ((tagUniverse_perm_of_perm h).append_left meta)

theorem setAll_eq :
    ∀ (tags : List (String × String)) (m : String → String) (k : String),
      setAll m tags k = (lastTagValue? tags k).getD (m k)
  | [], _, _ => rfl
  | (k1, v1) :: rest, m, k => by
    simp only [setAll]
    rw [setAll_eq rest _ k]
    simp only [lastTagValue?]
    cases h : lastTagValue? rest k with
    | some v => simp
    | none =>
      simp only [Option.getD_none, Option.getD_some, mapSet]
      by_cases hk : k1 = k
      · subst hk
        simp
      · simp [hk, Ne.symm hk]

theorem setAll_blank :
    ∀ (ks : List String) (m : String → String), (∀ x, m x = "") →
      ∀ k, setAll m (ks.map fun k0 => (k0, "")) k = ""
  | [], _, hm, k => hm k
  | k0 :: ks, m, hm, k => by
    rw [List.map_cons]
    simp only [setAll]
    exact setAll_blank ks _ (fun x => by simp [mapSet, hm]) k

theorem instanceTagMap_eq (univ : List String) (tags : List (String × String)) (k : String) :
    instanceTagMap univ tags k = lastTagValue tags k := by
  rw [instanceTagMap, setAll_eq, lastTagValue]
  congr 1
  exact setAll_blank univ emptyTagMap (fun _ => rfl) k

theorem sanitizeKeys_length :
    ∀ {ks sch : List String}, sanitizeKeys ks = some sch → sch.length = ks.length
  | [], _, h => by
    simp only [sanitizeKeys, Option.some.injEq] at h
    simp [← h]
  | k :: ks, sch, h => by
    rw [sanitizeKeys] at h
    cases h1 : sanatizeS k with
    | none => rw [h1] at h; simp at h
    | some s =>
      rw [h1] at h
      cases h2 : sanitizeKeys ks with
      | none => rw [h2] at h; simp at h
      | some rest =>
        rw [h2] at h
        simp only [Option.some.injEq] at h
        rw [← h]
        simp [sanitizeKeys_length h2]

theorem sanitizeKeys_count :
    ∀ {ks sch : List String}, sanitizeKeys ks = some sch →
      ∀ {k x : String}, sanatizeS k = some x → List.count k ks ≤ List.count x sch
  | [], _, h, k, x, _ => by
    simp only [sanitizeKeys, Option.some.injEq] at h
    simp [← h]
  | k0 :: ks, sch, h, k, x, hx => by
    rw [sanitizeKeys] at h
    cases h1 : sanatizeS k0 with
    | none => rw [h1] at h; simp at h
    | some s0 =>
      rw [h1] at h
      cases h2 : sanitizeKeys ks with
      | none => rw [h2] at h; simp at h
      | some rest =>
        rw [h2] at h
        simp only [Option.some.injEq] at h
        rw [← h]
        have ih := sanitizeKeys_count h2 hx
        by_cases hk : k0 = k
        · subst hk
          rw [hx] at h1
          obtain rfl : x = s0 := (Option.some.injEq _ _).mp h1
          simp only [List.count_cons_self]
          omega
        · rw [List.count_cons_of_ne (Ne.symm hk)]
          have hle : List.count x rest ≤ List.count x (s0 :: rest) := by
            rw [List.count_cons]
            exact Nat.le_add_right _ _
          omega

theorem sanitizeKeys_total : ∀ ks : List String, ∃ sch, sanitizeKeys ks = some sch
  | [] => ⟨[], rfl⟩
  | k :: ks => by
    obtain ⟨x, hx, -⟩ := sanatizeS_total k
    obtain ⟨rest, hrest⟩ := sanitizeKeys_total ks
    exact ⟨x :: rest, by rw [sanitizeKeys, hx, hrest]⟩

theorem mem_foldl_gaugeVecSet1 :
    ∀ (vs acc : List (List String)) (x : List String),
      x ∈ List.foldl gaugeVecSet1 acc vs ↔ x ∈ acc ∨ x ∈ vs
  | [], acc, x => by simp
  | v :: vs, acc, x => by
    rw [List.foldl_cons, mem_foldl_gaugeVecSet1 vs _ x]
    simp only [gaugeVecSet1]
    by_cases hv : v ∈ acc
    · rw [if_pos hv]
      simp only [List.mem_cons]
      constructor
      · rintro (h | h)
        · exact Or.inl h
        · exact Or.inr (Or.inr h)
      · rintro (h | h | h)
        · exact Or.inl h
        · exact Or.inl (h ▸ hv)
        · exact Or.inr h
    · rw [if_neg hv]
      simp only [List.mem_append, List.mem_singleton, List.mem_cons]
      tauto

theorem nodup_foldl_gaugeVecSet1 :
    ∀ (vs acc : List (List String)), acc.Nodup → (List.foldl gaugeVecSet1 acc vs).Nodup
  | [], _, h => h
  | v :: vs, acc, h => by
    rw [List.foldl_cons]
    apply nodup_foldl_gaugeVecSet1 vs
    simp only [gaugeVecSet1]
    by_cases hv : v ∈ acc
    · rwa [if_pos hv]
    · rw [if_neg hv]
      simp [List.nodup_append, h, hv]

/-- C1: on the input `aws:autoscaling:groupName`, the sanitizer extracts the
maximal runs of characters from the class `[A-Za-z0-9_]` and rejoins them
with a single underscore between consecutive runs, returning exactly
`aws_autoscaling_groupName`. -/
theorem claim_C1_sanatize_groupName :
    findAllSegments [] "aws:autoscaling:groupName".data false =
      ["aws".data, "autoscaling".data, "groupName".data] ∧
    restitch ["aws".data, "autoscaling".data, "groupName".data] =
      "aws_autoscaling_groupName".data ∧
    sanatizeS "aws:autoscaling:groupName" = some "aws_autoscaling_groupName" := by
  decide

/-- C2 counterexample: the claim says the fixed identity column comes first
and the sanitized tag columns follow in sanitized-name order. For EC2 with
tag universe containing `AAA` the code produces `[AAA, InstanceId]`, not
`[InstanceId, AAA]`; and with tag keys `a.b`, `a:a` the tag columns come out
as `[a_b, a_a]`, which is sorted by the raw keys but not ascending in the
sanitized names. -/
theorem claim_C2_counterexample :
    ec2Schema [⟨"i-1", [("AAA", "v")]⟩] = some ["AAA", "InstanceId"] ∧
    ec2Schema [⟨"i-1", [("AAA", "v")]⟩] ≠ some ["InstanceId", "AAA"] ∧
    ec2Schema [⟨"i-1", [("a.b", "v"), ("a:a", "w")]⟩] = some ["InstanceId", "a_b", "a_a"] ∧
    strLe "a_b" "a_a" = false := by
  decide

/-- C2 as amended: for each kind, the label-column sequence is the list of
all raw keys — the kind's fixed metadata column names together with every
tag-universe key — sorted as one slice in ascending byte-wise order of the
raw key, and then sanitized element-wise; metadata columns are not pulled to
the front and the sort key is the raw name, not the sanitized one. Stated
for the two kinds the claim cites, EC2 and Lambda. -/
theorem claim_C2_amended (rs : List Ec2Instance) (fs : List LambdaFn) :
    List.Sorted strOrd (ec2Keys rs) ∧
    (ec2Keys rs).Perm ("InstanceId" :: ec2Universe rs) ∧
    ec2Schema rs = sanitizeKeys (ec2Keys rs) ∧
    List.Sorted strOrd (lambdaKeys fs) ∧
    (lambdaKeys fs).Perm
      ("FunctionArn" :: "FunctionName" :: "Description" :: lambdaUniverse fs) ∧
    lambdaSchema fs = sanitizeKeys (lambdaKeys fs) :=
  ⟨sortStrings_sorted _, sortStrings_perm _, rfl,
   sortStrings_sorted _, sortStrings_perm _, rfl⟩

/-- C3: evaluation of `write_file` at the failing input — the write to the
temporary file fails after the file was created. The run does fail fatally
and the target path is unchanged, but `log.Fatal` exits the process without
running the deferred `os.Remove`, so the temporary file is left behind,
contrary to the claim that it is removed. -/
theorem claim_C3_write_failure (fs0 : PubFS) (doc : String) (h : fs0.temp = none) :
    write_file fs0 doc false true false false =
      PubOutcome.fatalExit { fs0 with temp := some "" } ∧
    (PubFS.mk fs0.target (some "")).target = fs0.target ∧
    (PubFS.mk fs0.target (some "")).temp ≠ none := by
  refine ⟨?_, rfl, by simp⟩
  simp [write_file, h]

theorem claim_C3_write_failure_witness :
    (PubFS.mk (some "old") none).temp = none ∧
    (write_file ⟨some "old", none⟩ "doc" false true false false =
        PubOutcome.fatalExit ⟨some "old", some ""⟩ ∧
      (PubFS.mk (some "old") (some "")).target = some "old" ∧
      (PubFS.mk (some "old") (some "")).temp ≠ none) :=
  ⟨rfl, claim_C3_write_failure ⟨some "old", none⟩ "doc" rfl⟩

/-- C4: two set-equal input collections for the EC2 kind, presented in any
iteration order (modelled: the resource lists are permutations of each
other), produce the identical label-schema column sequence. -/
theorem claim_C4_schema_deterministic (rs1 rs2 : List Ec2Instance) (h : rs1.Perm rs2) :
    ec2Schema rs1 = ec2Schema rs2 := by
  unfold ec2Schema kindSchema
  rw [kindKeys_eq_of_perm (h.map Ec2Instance.tags)]

theorem claim_C4_schema_deterministic_witness :
    ([⟨"i-1", [("b", "1"), ("a", "2")]⟩, ⟨"i-2", []⟩] : List Ec2Instance).Perm
      [⟨"i-2", []⟩, ⟨"i-1", [("b", "1"), ("a", "2")]⟩] ∧
    ec2Schema [⟨"i-1", [("b", "1"), ("a", "2")]⟩, ⟨"i-2", []⟩] =
      ec2Schema [⟨"i-2", []⟩, ⟨"i-1", [("b", "1"), ("a", "2")]⟩] :=
  ⟨by decide, claim_C4_schema_deterministic _ _ (by decide)⟩

/-- C5: for every EC2 resource, the built label vector has exactly the
schema's length, and the value at each column is the instance id at the
`InstanceId` column, the resource's tag value at a tag column the resource
carries, and the empty string at a tag column it lacks. -/
theorem claim_C5_schema_complete (rs : List Ec2Instance) (r : Ec2Instance) (_hr : r ∈ rs)
    (sch : List String) (hs : ec2Schema rs = some sch) :
    (ec2Vector rs r).length = sch.length ∧
    ec2Vector rs r = (ec2Keys rs).map fun k =>
      if k = "InstanceId" then r.instanceId else lastTagValue r.tags k := by
  constructor
  · rw [ec2Vector, List.length_map, sanitizeKeys_length hs]
    rfl
  · rw [ec2Vector]
    exact List.map_congr_left fun k hk => by
      by_cases hki : k = "InstanceId" <;> simp [hki, instanceTagMap_eq]

theorem claim_C5_schema_complete_witness :
    ((⟨"i-2", []⟩ : Ec2Instance) ∈
        ([⟨"i-1", [("Name", "x")]⟩, ⟨"i-2", []⟩] : List Ec2Instance)) ∧
    ec2Schema [⟨"i-1", [("Name", "x")]⟩, ⟨"i-2", []⟩] = some ["InstanceId", "Name"] ∧
    ((ec2Vector [⟨"i-1", [("Name", "x")]⟩, ⟨"i-2", []⟩] ⟨"i-2", []⟩).length =
        (["InstanceId", "Name"] : List String).length ∧
      ec2Vector [⟨"i-1", [("Name", "x")]⟩, ⟨"i-2", []⟩] ⟨"i-2", []⟩ =
        (ec2Keys [⟨"i-1", [("Name", "x")]⟩, ⟨"i-2", []⟩]).map fun k =>
          if k = "InstanceId" then "i-2" else lastTagValue [] k) :=
  ⟨by decide, by decide,
   claim_C5_schema_complete _ ⟨"i-2", []⟩ (by decide) _ (by decide)⟩

/-- C6 counterexample: sanitizing the empty string does not fail — the
sanitizer returns the value `"_"`, so the fatal-failure case is not
reached. -/
theorem claim_C6_counterexample :
    sanatizeS "" = some "_" ∧ sanatizeS "" ≠ none := by
  decide

/-- C6 as amended: sanitizing the empty string succeeds and returns `"_"`:
the extraction step yields one empty run, the restitched string is empty and
fails the grammar, and the always-applicable underscore-padding step then
returns the legal identifier `"_"`. -/
theorem claim_C6_amended :
    findAllSegments [] [] false = [[]] ∧
    restitch [[]] = [] ∧
    regex_full [] = false ∧
    regex_first_number [] = true ∧
    sanatize_tag [] = some ['_'] := by
  decide

/-- C7 counterexample: two resources with the identical full label vector
are registered; the gauge vector ends up holding a single merged series and
no error is surfaced anywhere — the registration model has no error outcome
at all. -/
theorem claim_C7_counterexample :
    asgVectors [⟨"g1", "arn:g1", ["i-1", "i-1"]⟩] =
      [["g1", "arn:g1", "i-1"], ["g1", "arn:g1", "i-1"]] ∧
    asgSeries [⟨"g1", "arn:g1", ["i-1", "i-1"]⟩] = [["g1", "arn:g1", "i-1"]] := by
  decide

/-- C7 as amended: when two resources of the ASG kind produce an identical
full label vector, the second registration maps to the already-existing
series: the series list stays duplicate-free and contains exactly the
distinct registered vectors, so the two resources are silently merged into
one series rather than surfaced as a duplicate-series error. -/
theorem claim_C7_amended (groups : List AsgGroup) :
    (asgSeries groups).Nodup ∧
    ∀ v, v ∈ asgSeries groups ↔ v ∈ asgVectors groups := by
  constructor
  · exact nodup_foldl_gaugeVecSet1 _ _ (by simp)
  · intro v
    rw [asgSeries, mem_foldl_gaugeVecSet1]
    simp

/-- C8: the sanitizer is idempotent — whenever it succeeds with output `r`,
running it on `r` succeeds and returns `r` unchanged, because every
successful output already matches the full identifier grammar and is
returned by the first check. -/
theorem claim_C8_idempotent (s r : String) (h : sanatizeS s = some r) :
    sanatizeS r = some r := by
  rw [sanatizeS] at h
  cases h1 : sanatize_tag s.data with
  | none => rw [h1] at h; simp at h
  | some l =>
    rw [h1] at h
    have h2 : some (String.mk l) = some r := h
    obtain rfl : String.mk l = r := (Option.some.injEq _ _).mp h2
    show (sanatize_tag (String.mk l).data).map String.mk = some (String.mk l)
    rw [show (String.mk l).data = l from rfl, sanatize_tag_of_full (sanatize_tag_full h1)]
    rfl

theorem claim_C8_idempotent_witness :
    sanatizeS "a:b" = some "a_b" ∧ sanatizeS "a_b" = some "a_b" :=
  ⟨by decide, claim_C8_idempotent "a:b" "a_b" (by decide)⟩

/-- C9: the sanitizer is total and its panic branch unreachable — every
input yields a result matching `^[a-zA-Z_][a-zA-Z0-9_]*$`; in particular the
empty string maps to `"_"` and a nonempty string with no character from
`[A-Za-z0-9_]` maps to one underscore per character. -/
theorem claim_C9_total :
    (∀ s : String, ∃ r : String, sanatizeS s = some r ∧ regex_full r.data = true) ∧
    sanatizeS "" = some "_" ∧
    ∀ s : String, s.data ≠ [] → (∀ c ∈ s.data, isValidChar c = false) →
      sanatizeS s = some (String.mk (List.replicate s.data.length '_')) := by
  refine ⟨sanatizeS_total, by decide, ?_⟩
  intro s hne hinv
  rw [sanatizeS, sanatize_tag_invalid s.data hne hinv]
  rfl

theorem claim_C9_total_witness :
    ":::".data ≠ [] ∧ (∀ c ∈ ":::".data, isValidChar c = false) ∧
    sanatizeS ":::" = some "___" :=
  ⟨by decide, by decide, claim_C9_total.2.2 ":::" (by decide) (by decide)⟩

/-- C10: when a resource carries a tag whose key equals one of the kind's
fixed metadata column names, that key appears at least twice in the raw key
slice — once appended explicitly and once from the tag universe — so the
sanitized schema is not duplicate-free. Stated for the Lambda kind. -/
theorem claim_C10_duplicate_columns (fs : List LambdaFn) (k : String)
    (h1 : k ∈ ["FunctionArn", "FunctionName", "Description"])
    (h2 : k ∈ lambdaUniverse fs) :
    2 ≤ (lambdaKeys fs).count k ∧
    ∀ sch, lambdaSchema fs = some sch → ¬ sch.Nodup := by
  have hcount : 2 ≤ (lambdaKeys fs).count k := by
    have hperm :=
      sortStrings_perm
        (["FunctionArn", "FunctionName", "Description"] ++ tagUniverse (List.map LambdaFn.tags fs))
    rw [lambdaKeys, kindKeys, hperm.count_eq, List.count_append]
    have c1 : 1 ≤ List.count k ["FunctionArn", "FunctionName", "Description"] :=
      List.one_le_count_iff.mpr h1
    have c2 : 1 ≤ List.count k (tagUniverse (List.map LambdaFn.tags fs)) :=
      List.one_le_count_iff.mpr h2
    omega
  refine ⟨hcount, ?_⟩
  intro sch hsch hnodup
  obtain ⟨x, hx, -⟩ := sanatizeS_total k
  have hle : List.count k (lambdaKeys fs) ≤ List.count x sch :=
    sanitizeKeys_count hsch hx
  have hone : List.count x sch ≤ 1 := List.nodup_iff_count_le_one.mp hnodup x
  omega

theorem claim_C10_duplicate_columns_witness :
    ("FunctionName" ∈ (["FunctionArn", "FunctionName", "Description"] : List String)) ∧
    ("FunctionName" ∈ lambdaUniverse [⟨"arn:f1", "f1", "", [("FunctionName", "shadow")]⟩]) ∧
    2 ≤ (lambdaKeys [⟨"arn:f1", "f1", "", [("FunctionName", "shadow")]⟩]).count "FunctionName" :=
  ⟨by decide, by decide,
   (claim_C10_duplicate_columns [⟨"arn:f1", "f1", "", [("FunctionName", "shadow")]⟩]
     "FunctionName" (by decide) (by decide)).1⟩

end NubisExposition
